import Mathlib

/-!
# Verification of the FLAMES compatibility game (`app.py`)

A shallow embedding of the algorithmic core of `app.py` — the `sanitize`
normalizer, the `find_common_pairs` greedy letter matcher, the
`eliminate_flames_animation` counting-out eliminator, the `map_result`
category table and the end-to-end submitted-form computation — together
with proofs of the specified properties.

Modelling conventions: Python strings are `List Char`; Python's `%` on
possibly negative integers is `Int.emod` (same sign convention); the
UI-only parts of the source (placeholders, delays, HTML, CSV logging)
carry no data dependency into the results and are dropped.
-/

/-- `sanitize` (app.py lines 15–17): lowercase the input and keep only the
alphabetic characters.  `str.lower`/`str.isalpha` are modelled on their
ASCII fragment (`Char.toLower`/`Char.isAlpha`), matching the spec's
ASCII-letters-only scope. -/
def sanitize (name : List Char) : List Char :=
  (name.map Char.toLower).filter Char.isAlpha

/-- Inner loop of `find_common_pairs` (app.py lines 38–43): the first index
`j` of `b_chars` whose letter is not yet removed and equals `ch`. -/
def firstAvailable (ch : Char) : List Char → List Bool → Option Nat
  | c :: cs, r :: rs =>
    if !r && (ch == c) then some 0
    else (firstAvailable ch cs rs).map (· + 1)
  | _, _ => none

/-- Outer loop of `find_common_pairs` (app.py lines 37–43), iterating over
`a_chars` with the current index `i` and threading the `removed_b` flags.
Returns the pairs found, the `removed_a` flags of the processed suffix
(Python builds the same flags by `removed_a[i] = True` on a match) and the
final `removed_b` flags. -/
def findCommonPairsAux (b : List Char) :
    List Char → Nat → List Bool → List (Nat × Nat) × List Bool × List Bool
  | [], _, removed_b => ([], [], removed_b)
  | ch :: as, i, removed_b =>
    match firstAvailable ch b removed_b with
    | some j =>
      let r := findCommonPairsAux b as (i + 1) (removed_b.set j true)
      ((i, j) :: r.1, true :: r.2.1, r.2.2)
    | none =>
      let r := findCommonPairsAux b as (i + 1) removed_b
      (r.1, false :: r.2.1, r.2.2)

/-- `find_common_pairs` (app.py lines 29–44): greedy first-available pairing
of the letters of `a_chars` against the letters of `b_chars`. -/
def find_common_pairs (a_chars b_chars : List Char) :
    List (Nat × Nat) × List Bool × List Bool :=
  findCommonPairsAux b_chars a_chars 0 (List.replicate b_chars.length false)

/-- `sum(1 for x in flags if not x)` (app.py line 146). -/
def countUnremoved (flags : List Bool) : Nat :=
  (flags.filter (fun x => !x)).length

/-- `remaining` (app.py line 146): count of unmatched letters across the two
names, computed from the removal flags of `find_common_pairs`. -/
def remainingCount (removed_a removed_b : List Bool) : Nat :=
  countUnremoved removed_a + countUnremoved removed_b

/-- The removal index `(count - 1) % n` of `eliminate_flames_animation`
(app.py line 56); Python's `%` on a possibly negative left operand is
`Int.emod`. -/
def removalIndex (count n : Nat) : Nat :=
  (((count : Int) - 1) % (n : Int)).toNat

theorem removalIndex_lt (count n : Nat) (hn : 0 < n) : removalIndex count n < n := by
  have h0 : (0 : Int) < (n : Int) := by exact_mod_cast hn
  have h1 : ((count : Int) - 1) % (n : Int) < (n : Int) := Int.emod_lt_of_pos _ h0
  have h2 : (0 : Int) ≤ ((count : Int) - 1) % (n : Int) :=
    Int.emod_nonneg _ (by omega)
  unfold removalIndex
  omega

/-- `flames[index:] + flames[:index]` (app.py line 84): restart the working
sequence at `index`. -/
def pyRotate (flames : List Char) (index : Nat) : List Char :=
  flames.drop index ++ flames.take index

/-- The `while len(flames) > 1` loop of `eliminate_flames_animation`
(app.py lines 54–84), with the counting animation and delays dropped: each
iteration pops the letter at `(count - 1) % n`, records it, and rotates the
remainder to start at the removal index.  Returns the final working list and
the eliminated letters in removal order. -/
def elimLoop (count : Nat) (flames : List Char) : List Char × List Char :=
  if h : 1 < flames.length then
    have hidx : removalIndex count flames.length < flames.length :=
      removalIndex_lt count flames.length (by omega)
    let index := removalIndex count flames.length
    let removed := flames.get ⟨index, hidx⟩
    let r := elimLoop count (pyRotate (flames.eraseIdx index) index)
    (r.1, removed :: r.2)
  else (flames, [])
termination_by flames.length
decreasing_by
  simp [pyRotate, List.length_eraseIdx, hidx]
  omega

/-- `list("FLAMES")` (app.py line 51). -/
def flamesList : List Char := ['F', 'L', 'A', 'M', 'E', 'S']

/-- `eliminate_flames_animation` (app.py lines 46–87): the final letter
(`flames[0]`; `none` would model an index error on an empty list, which the
real start list cannot produce) and the elimination steps in order. -/
def eliminate_flames_animation (count : Nat) : Option Char × List Char :=
  ((elimLoop count flamesList).1.head?, (elimLoop count flamesList).2)

/-- `map_result` (app.py lines 89–98) restricted to the category word; the
emoji and one-liner components are presentation only.  `mapping.get` with
default gives category `Unknown` for a letter outside the table. -/
def map_result (letter : Char) : String :=
  if letter = 'F' then "Friends"
  else if letter = 'L' then "Love"
  else if letter = 'A' then "Affection"
  else if letter = 'M' then "Marriage"
  else if letter = 'E' then "Enemies"
  else if letter = 'S' then "Siblings"
  else "Unknown"

/-- Outcome of the submitted-form computation: either the invalid-input
error branch or a full result. -/
inductive FlamesOutcome where
  | invalidInput
  | result (remaining : Nat) (eliminationOrder : List Char)
      (resultLetter : Option Char) (resultCategory : Option String)
  deriving DecidableEq, Repr

/-- The `if submitted:` branch of app.py (lines 114–170) as the spec's
`computeFlames`: sanitize both names, fail when either is empty, otherwise
run the matcher, count the remaining letters, run the eliminator and map the
surviving letter to its category. -/
def computeFlames (name1 name2 : List Char) : FlamesOutcome :=
  let s1 := sanitize name1
  let s2 := sanitize name2
  if s1 = [] ∨ s2 = [] then .invalidInput
  else
    let m := find_common_pairs s1 s2
    let remaining := remainingCount m.2.1 m.2.2
    let e := eliminate_flames_animation remaining
    .result remaining e.2 e.1 (e.1.map map_result)

/-! ## Spec-side reference definitions (for the refinement claims) -/

/-- The spec's greedy matcher (section 4.2), stated directly on letter
lists: take `A`'s letters in order and match each against the first equal
still-unmatched letter of `B`; returns the number of matched pairs. -/
def specGreedyMatched : List Char → List Char → Nat
  | [], _ => 0
  | ch :: as, b =>
    if ch ∈ b then specGreedyMatched as (b.erase ch) + 1
    else specGreedyMatched as b

/-- The letters of `B` left unmatched by the spec's greedy matcher. -/
def specGreedyRest : List Char → List Char → List Char
  | [], b => b
  | ch :: as, b =>
    if ch ∈ b then specGreedyRest as (b.erase ch)
    else specGreedyRest as b

/-- The spec's eliminator (section 4.3): while more than one letter remains,
remove the letter at index `(N − 1) mod n`, record it, and rotate the
working sequence so it restarts at the removal index. -/
def specEliminate (N : Nat) (ws : List Char) : List Char × List Char :=
  if h : 1 < ws.length then
    have hidx : (N - 1) % ws.length < ws.length := Nat.mod_lt _ (by omega)
    let r := specEliminate N ((ws.eraseIdx ((N - 1) % ws.length)).rotateLeft ((N - 1) % ws.length))
    (r.1, ws.get ⟨(N - 1) % ws.length, hidx⟩ :: r.2)
  else (ws, [])
termination_by ws.length
decreasing_by
  simp [List.length_eraseIdx, hidx, List.rotateLeft]
  split <;> simp [List.length_eraseIdx, hidx] <;> omega

/-- The positions of `b` not flagged as removed, in order. -/
def unmatched : List Char → List Bool → List Char
  | c :: cs, r :: rs => if r then unmatched cs rs else c :: unmatched cs rs
  | _, _ => []

/-! ## Matcher lemmas -/

theorem unmatched_replicate (b : List Char) :
    unmatched b (List.replicate b.length false) = b := by
  induction b with
  | nil => rfl
  | cons c cs ih => simp [unmatched, List.replicate_succ, ih]

theorem unmatched_length (b : List Char) (rb : List Bool) (h : rb.length = b.length) :
    (unmatched b rb).length = countUnremoved rb := by
  induction b generalizing rb with
  | nil =>
    have h0 : rb = [] := List.eq_nil_of_length_eq_zero h
    subst h0
    rfl
  | cons c cs ih =>
    cases rb with
    | nil => simp at h
    | cons r rs =>
      simp only [List.length_cons, Nat.succ_inj] at h
      cases r <;> simp [unmatched, countUnremoved, List.filter, ih rs h]

theorem firstAvailable_none (ch : Char) (b : List Char) (rb : List Bool)
    (h : firstAvailable ch b rb = none) : ch ∉ unmatched b rb := by
  induction b generalizing rb with
  | nil => cases rb <;> simp [unmatched]
  | cons c cs ih =>
    cases rb with
    | nil => simp [unmatched]
    | cons r rs =>
      simp only [firstAvailable] at h
      by_cases hc : (!r && (ch == c)) = true
      · rw [if_pos hc] at h
        simp at h
      · rw [if_neg hc] at h
        have h' : firstAvailable ch cs rs = none := by
          cases hfa : firstAvailable ch cs rs <;> simp [hfa] at h ⊢
        cases r with
        | true => simpa [unmatched] using ih rs h'
        | false =>
          have hne : ch ≠ c := by simpa using hc
          simp [unmatched, hne, ih rs h']

theorem firstAvailable_some (ch : Char) (b : List Char) (rb : List Bool) (j : Nat)
    (h : firstAvailable ch b rb = some j) :
    j < b.length ∧ j < rb.length ∧ b[j]? = some ch ∧ rb[j]? = some false ∧
    unmatched b (rb.set j true) = (unmatched b rb).erase ch ∧
    ch ∈ unmatched b rb ∧
    (∀ k, k < j → b[k]? = some ch → rb[k]? = some true) := by
  induction b generalizing rb j with
  | nil => cases rb <;> simp [firstAvailable] at h
  | cons c cs ih =>
    cases rb with
    | nil => simp [firstAvailable] at h
    | cons r rs =>
      simp only [firstAvailable] at h
      by_cases hc : (!r && (ch == c)) = true
      · rw [if_pos hc] at h
        simp only [Option.some_inj] at h
        subst h
        obtain ⟨hr, hceq⟩ : r = false ∧ ch = c := by simpa using hc
        subst hr hceq
        refine ⟨by simp, by simp, by simp, by simp, ?_, by simp [unmatched], by omega⟩
        simp [List.set, unmatched, List.erase_cons_head]
      · rw [if_neg hc] at h
        cases hfa : firstAvailable ch cs rs with
        | none => simp [hfa] at h
        | some j' =>
          simp only [hfa, Option.map_some', Option.some_inj] at h
          subst h
          obtain ⟨h1, h2, h3, h4, h5, h6, h7⟩ := ih rs j' hfa
          have hmain : ∀ k, k < j' + 1 → (c :: cs)[k]? = some ch → (r :: rs)[k]? = some true := by
            intro k hk hbk
            cases k with
            | zero =>
              simp only [List.getElem?_cons_zero, Option.some_inj] at hbk
              subst hbk
              cases r with
              | false => simp at hc
              | true => simp
            | succ k' =>
              simp only [List.getElem?_cons_succ] at hbk ⊢
              exact h7 k' (by omega) hbk
          cases r with
          | true =>
            exact ⟨by simpa using h1, by simpa using h2, by simpa using h3,
              by simpa using h4, by simpa [unmatched, List.set] using h5,
              by simpa [unmatched] using h6, hmain⟩
          | false =>
            have hne : ch ≠ c := by simpa using hc
            have hne' : ¬ (c == ch) := by simpa using fun hh => hne hh.symm
            refine ⟨by simpa using h1, by simpa using h2, by simpa using h3,
              by simpa using h4, ?_, by simp [unmatched, h6], hmain⟩
            simp [unmatched, List.set, h5, List.erase_cons, hne']

theorem findCommonPairsAux_greedy (b : List Char) (as : List Char) :
    ∀ (i : Nat) (rb : List Bool),
      (findCommonPairsAux b as i rb).1.length = specGreedyMatched as (unmatched b rb) ∧
      unmatched b (findCommonPairsAux b as i rb).2.2 = specGreedyRest as (unmatched b rb) := by
  induction as with
  | nil => intro i rb; simp [findCommonPairsAux, specGreedyMatched, specGreedyRest]
  | cons ch as ih =>
    intro i rb
    simp only [findCommonPairsAux]
    cases hfa : firstAvailable ch b rb with
    | some j =>
      obtain ⟨-, -, -, -, h5, h6, -⟩ := firstAvailable_some ch b rb j hfa
      simp only [specGreedyMatched, specGreedyRest, if_pos h6]
      refine ⟨?_, ?_⟩
      · simp only [List.length_cons, (ih (i + 1) (rb.set j true)).1, h5]
      · simp only [(ih (i + 1) (rb.set j true)).2, h5]
    | none =>
      have h6 := firstAvailable_none ch b rb hfa
      simp only [specGreedyMatched, specGreedyRest, if_neg h6]
      exact ih (i + 1) rb

theorem findCommonPairsAux_lengths (b : List Char) (as : List Char) :
    ∀ (i : Nat) (rb : List Bool),
      (findCommonPairsAux b as i rb).2.2.length = rb.length ∧
      (findCommonPairsAux b as i rb).2.1.length = as.length ∧
      (findCommonPairsAux b as i rb).1.length ≤ as.length ∧
      countUnremoved (findCommonPairsAux b as i rb).2.1 =
        as.length - (findCommonPairsAux b as i rb).1.length := by
  induction as with
  | nil => intro i rb; simp [findCommonPairsAux, countUnremoved]
  | cons ch as ih =>
    intro i rb
    simp only [findCommonPairsAux]
    cases hfa : firstAvailable ch b rb with
    | some j =>
      obtain ⟨h1, h2, h3, h4⟩ := ih (i + 1) (rb.set j true)
      simp only [List.length_cons, List.length_set] at h1 ⊢
      refine ⟨h1, by simp [h2], by simpa using h3, ?_⟩
      simp only [countUnremoved, List.filter] at h4 ⊢
      simp [h4]
    | none =>
      obtain ⟨h1, h2, h3, h4⟩ := ih (i + 1) rb
      refine ⟨h1, by simp [h2], by simp; omega, ?_⟩
      simp only [countUnremoved, List.filter] at h4 ⊢
      simp [h4]
      omega

/-- The spec's first-available policy as a predicate on a produced pairs
list: each pair picks a `B`-index whose equal-letter predecessors are all
already used, `used` growing with each pair taken. -/
def GreedyChoice (b : List Char) : List (Nat × Nat) → (Nat → Prop) → Prop
  | [], _ => True
  | p :: ps, used =>
      (∀ k, k < p.2 → b[k]? = b[p.2]? → used k) ∧
      GreedyChoice b ps (fun k => k = p.2 ∨ used k)

theorem greedyChoice_congr (b : List Char) (ps : List (Nat × Nat)) :
    ∀ (u v : Nat → Prop), (∀ k, u k ↔ v k) → GreedyChoice b ps u → GreedyChoice b ps v := by
  induction ps with
  | nil => intro u v h hg; trivial
  | cons p ps ih =>
    intro u v h hg
    exact ⟨fun k hk hb => (h k).1 (hg.1 k hk hb),
      ih _ _ (fun k => or_congr Iff.rfl (h k)) hg.2⟩

theorem findCommonPairsAux_pairs (b : List Char) (as : List Char) :
    ∀ (i : Nat) (rb : List Bool),
      (∀ p ∈ (findCommonPairsAux b as i rb).1,
        i ≤ p.1 ∧ p.1 - i < as.length ∧ p.2 < b.length ∧ rb[p.2]? = some false ∧
        as[p.1 - i]? = b[p.2]?) ∧
      (findCommonPairsAux b as i rb).1.Pairwise (fun p q => p.1 < q.1 ∧ p.2 ≠ q.2) ∧
      GreedyChoice b (findCommonPairsAux b as i rb).1 (fun k => rb[k]? = some true) := by
  induction as with
  | nil => intro i rb; simp [findCommonPairsAux, GreedyChoice]
  | cons ch as ih =>
    intro i rb
    simp only [findCommonPairsAux]
    cases hfa : firstAvailable ch b rb with
    | some j =>
      obtain ⟨h1, h2, h3, h4, -, -, h7⟩ := firstAvailable_some ch b rb j hfa
      obtain ⟨ihm, ihp, ihg⟩ := ih (i + 1) (rb.set j true)
      have hset_iff : ∀ k, (rb.set j true)[k]? = some true ↔ (k = j ∨ rb[k]? = some true) := by
        intro k
        by_cases hkj : k = j
        · subst hkj
          simp [List.getElem?_set_self, h2]
        · rw [List.getElem?_set_ne (fun hh => hkj hh.symm)]
          simp [hkj]
      have hmem_ne : ∀ p ∈ (findCommonPairsAux b as (i + 1) (rb.set j true)).1,
          p.2 ≠ j ∧ rb[p.2]? = some false := by
        intro p hp
        obtain ⟨-, -, -, hps, -⟩ := ihm p hp
        have hpj : p.2 ≠ j := by
          intro hh
          rw [hh, (hset_iff j).2 (Or.inl rfl)] at hps
          simp at hps
        refine ⟨hpj, ?_⟩
        rw [List.getElem?_set_ne (fun hh => hpj hh.symm)] at hps
        exact hps
      refine ⟨?_, ?_, ?_⟩
      · intro p hp
        rcases List.mem_cons.1 hp with rfl | hp'
        · exact ⟨Nat.le_refl i, by simp, h1, h4, by simp [h3]⟩
        · obtain ⟨g1, g2, g3, -, g5⟩ := ihm p hp'
          obtain ⟨-, g4'⟩ := hmem_ne p hp'
          have hge : i + 1 ≤ p.1 := g1
          refine ⟨by omega, by simp; omega, g3, g4', ?_⟩
          have hsub : p.1 - i = (p.1 - (i + 1)) + 1 := by omega
          rw [hsub, List.getElem?_cons_succ]
          exact g5
      · refine List.pairwise_cons.2 ⟨?_, ihp⟩
        intro q hq
        obtain ⟨gq1, -, -, -, -⟩ := ihm q hq
        exact ⟨by omega, fun hh => (hmem_ne q hq).1 hh.symm⟩
      · refine ⟨?_, ?_⟩
        · intro k hk hb
          rw [h3] at hb
          exact h7 k hk hb
        · exact greedyChoice_congr b _ _ _ (fun k => (hset_iff k)) ihg
    | none =>
      obtain ⟨ihm, ihp, ihg⟩ := ih (i + 1) rb
      refine ⟨?_, ihp, ihg⟩
      intro p hp
      obtain ⟨g1, g2, g3, g4, g5⟩ := ihm p hp
      have hge : i + 1 ≤ p.1 := g1
      refine ⟨by omega, by simp; omega, g3, g4, ?_⟩
      have hsub : p.1 - i = (p.1 - (i + 1)) + 1 := by omega
      rw [hsub, List.getElem?_cons_succ]
      exact g5

theorem specGreedyMatched_eq_inter_card (as : List Char) :
    ∀ (b : List Char),
      specGreedyMatched as b = ((as : Multiset Char) ∩ (b : Multiset Char)).card := by
  induction as with
  | nil => intro b; simp [specGreedyMatched]
  | cons ch as ih =>
    intro b
    by_cases hmem : ch ∈ b
    · have hmem' : ch ∈ (b : Multiset Char) := by simpa using hmem
      rw [show ((ch :: as : List Char) : Multiset Char) = ch ::ₘ (as : Multiset Char) from rfl,
        Multiset.cons_inter_of_pos _ hmem']
      simp [specGreedyMatched, hmem, ih (b.erase ch), Multiset.coe_erase]
    · have hmem' : ch ∉ (b : Multiset Char) := by simpa using hmem
      rw [show ((ch :: as : List Char) : Multiset Char) = ch ::ₘ (as : Multiset Char) from rfl,
        Multiset.cons_inter_of_neg _ hmem']
      simp [specGreedyMatched, hmem, ih b]

theorem specGreedyMatched_le (as : List Char) :
    ∀ (b : List Char), specGreedyMatched as b ≤ as.length ∧ specGreedyMatched as b ≤ b.length := by
  induction as with
  | nil => intro b; simp [specGreedyMatched]
  | cons ch as ih =>
    intro b
    by_cases hmem : ch ∈ b
    · have hlen : (b.erase ch).length = b.length - 1 := List.length_erase_of_mem hmem
      have hb1 : 1 ≤ b.length := List.length_pos.2 (List.ne_nil_of_mem hmem)
      obtain ⟨e1, e2⟩ := ih (b.erase ch)
      simp only [specGreedyMatched, if_pos hmem, List.length_cons]
      omega
    · obtain ⟨e1, e2⟩ := ih b
      simp only [specGreedyMatched, if_neg hmem, List.length_cons]
      omega

theorem specGreedyRest_length (as : List Char) :
    ∀ (b : List Char), (specGreedyRest as b).length = b.length - specGreedyMatched as b := by
  induction as with
  | nil => intro b; simp [specGreedyRest, specGreedyMatched]
  | cons ch as ih =>
    intro b
    by_cases hmem : ch ∈ b
    · have hlen : (b.erase ch).length = b.length - 1 := List.length_erase_of_mem hmem
      simp only [specGreedyRest, specGreedyMatched, if_pos hmem, ih (b.erase ch), hlen]
      omega
    · simp only [specGreedyRest, specGreedyMatched, if_neg hmem, ih b]

theorem find_common_pairs_matched_card (a b : List Char) :
    (find_common_pairs a b).1.length = ((a : Multiset Char) ∩ (b : Multiset Char)).card := by
  have h := (findCommonPairsAux_greedy b a 0 (List.replicate b.length false)).1
  rw [find_common_pairs, h, unmatched_replicate, specGreedyMatched_eq_inter_card]

theorem find_common_pairs_matched_spec (a b : List Char) :
    (find_common_pairs a b).1.length = specGreedyMatched a b := by
  have h := (findCommonPairsAux_greedy b a 0 (List.replicate b.length false)).1
  rw [find_common_pairs, h, unmatched_replicate]

theorem countUnremoved_removed_b (a b : List Char) :
    countUnremoved (find_common_pairs a b).2.2 = b.length - (find_common_pairs a b).1.length := by
  have hg := findCommonPairsAux_greedy b a 0 (List.replicate b.length false)
  have hl := (findCommonPairsAux_lengths b a 0 (List.replicate b.length false)).1
  rw [List.length_replicate] at hl
  rw [find_common_pairs, ← unmatched_length b _ hl, hg.2, unmatched_replicate,
    specGreedyRest_length, ← find_common_pairs_matched_spec, find_common_pairs]

theorem countUnremoved_removed_a (a b : List Char) :
    countUnremoved (find_common_pairs a b).2.1 = a.length - (find_common_pairs a b).1.length := by
  have hl := findCommonPairsAux_lengths b a 0 (List.replicate b.length false)
  rw [find_common_pairs]
  exact hl.2.2.2

theorem remainingCount_formula (a b : List Char) :
    remainingCount (find_common_pairs a b).2.1 (find_common_pairs a b).2.2 =
      (a.length - (find_common_pairs a b).1.length) +
      (b.length - (find_common_pairs a b).1.length) := by
  rw [remainingCount, countUnremoved_removed_a, countUnremoved_removed_b]

/-! ## Eliminator lemmas -/

theorem removalIndex_eq (N n : Nat) (hN : 1 ≤ N) (_hn : 0 < n) :
    removalIndex N n = (N - 1) % n := by
  unfold removalIndex
  have h1 : ((N : Int) - 1) = ((N - 1 : Nat) : Int) := by omega
  rw [h1, ← Int.natCast_mod]
  omega

theorem pyRotate_eq_rotateLeft (l : List Char) (idx : Nat) (h : idx ≤ l.length) :
    pyRotate l idx = l.rotateLeft idx := by
  rw [pyRotate, List.rotateLeft]
  by_cases h1 : l.length ≤ 1
  · match l, idx with
    | [], 0 => simp
    | [x], 0 => simp
    | [x], 1 => simp
    | x :: y :: t, _ => simp at h1
  · rw [if_neg h1]
    rcases Nat.lt_or_ge idx l.length with h2 | h2
    · rw [Nat.mod_eq_of_lt h2]
    · have h3 : idx = l.length := by omega
      subst h3
      simp

theorem pyRotate_perm (l : List Char) (idx : Nat) : (pyRotate l idx).Perm l := by
  rw [pyRotate]
  calc (l.drop idx ++ l.take idx).Perm (l.take idx ++ l.drop idx) := List.perm_append_comm
    _ = l := List.take_append_drop idx l

theorem list_perm_get_cons_eraseIdx (l : List Char) (i : Nat) (h : i < l.length) :
    l.Perm (l.get ⟨i, h⟩ :: l.eraseIdx i) := by
  conv_lhs => rw [← List.take_append_drop i l, ← List.getElem_cons_drop l i h]
  rw [List.eraseIdx_eq_take_drop_succ]
  exact List.perm_middle

theorem elimLoop_spec (count : Nat) : ∀ (n : Nat) (l : List Char), l.length = n → l ≠ [] →
    ∃ c, (elimLoop count l).1 = [c] ∧ ((elimLoop count l).2 ++ [c]).Perm l ∧
      (elimLoop count l).2.length = l.length - 1 := by
  intro n
  induction n using Nat.strong_induction_on with
  | _ n ih =>
    intro l hlen hne
    rw [elimLoop]
    by_cases h : 1 < l.length
    · rw [dif_pos h]
      have hpos : 0 < l.length := by omega
      have hidx := removalIndex_lt count l.length hpos
      set index := removalIndex count l.length with hidef
      have hrest_len : (l.eraseIdx index).length = l.length - 1 := by
        rw [List.length_eraseIdx, if_pos hidx]
      have hrot_len : (pyRotate (l.eraseIdx index) index).length = l.length - 1 := by
        simp [pyRotate]
        omega
      have hrot_ne : pyRotate (l.eraseIdx index) index ≠ [] := by
        intro hcon
        rw [hcon] at hrot_len
        simp at hrot_len
        omega
      have hlt : l.length - 1 < n := by
        rw [← hlen]
        exact Nat.sub_lt hpos one_pos
      obtain ⟨c, hc1, hc2, hc3⟩ :=
        ih (l.length - 1) hlt (pyRotate (l.eraseIdx index) index) hrot_len hrot_ne
      refine ⟨c, hc1, ?_, ?_⟩
      · simp only [List.cons_append]
        calc (l.get ⟨index, hidx⟩ :: ((elimLoop count (pyRotate (l.eraseIdx index) index)).2 ++ [c]))
            |>.Perm (l.get ⟨index, hidx⟩ :: pyRotate (l.eraseIdx index) index) :=
              List.Perm.cons _ hc2
          _ |>.Perm (l.get ⟨index, hidx⟩ :: l.eraseIdx index) :=
              List.Perm.cons _ (pyRotate_perm _ _)
          _ |>.Perm l := (list_perm_get_cons_eraseIdx l index hidx).symm
      · simp only [List.length_cons, hc3, hrot_len]
        omega
    · rw [dif_neg h]
      have hone : l.length = 1 := by
        cases l with
        | nil => exact absurd rfl hne
        | cons x t =>
          simp at h ⊢
          exact h
      obtain ⟨c, hc⟩ : ∃ c, l = [c] := by
        cases l with
        | nil => exact absurd rfl hne
        | cons x t =>
          cases t with
          | nil => exact ⟨x, rfl⟩
          | cons y t' => simp at hone
      exact ⟨c, by simp [hc], by simp [hc], by simp [hc]⟩

theorem elimLoop_eq_specEliminate (N : Nat) (hN : 1 ≤ N) :
    ∀ (n : Nat) (ws : List Char), ws.length = n → elimLoop N ws = specEliminate N ws := by
  intro n
  induction n using Nat.strong_induction_on with
  | _ n ih =>
    intro ws hlen
    rw [elimLoop, specEliminate]
    by_cases h : 1 < ws.length
    · rw [dif_pos h, dif_pos h]
      have hpos : 0 < ws.length := by omega
      have hieq : removalIndex N ws.length = (N - 1) % ws.length :=
        removalIndex_eq N ws.length hN hpos
      have hidx := removalIndex_lt N ws.length hpos
      have hrest_len : (ws.eraseIdx (removalIndex N ws.length)).length = ws.length - 1 := by
        rw [List.length_eraseIdx, if_pos hidx]
      have hrot : pyRotate (ws.eraseIdx (removalIndex N ws.length)) (removalIndex N ws.length) =
          (ws.eraseIdx ((N - 1) % ws.length)).rotateLeft ((N - 1) % ws.length) := by
        rw [← hieq, pyRotate_eq_rotateLeft]
        rw [hrest_len]
        omega
      have hrec := ih (ws.length - 1) (by rw [← hlen]; exact Nat.sub_lt hpos one_pos)
        ((ws.eraseIdx ((N - 1) % ws.length)).rotateLeft ((N - 1) % ws.length))
        (by rw [← hrot]; simp [pyRotate]; omega)
      rw [hieq] at hrot
      simp only [hieq, hrot, hrec]
    · rw [dif_neg h, dif_neg h]

theorem elimLoop_steps_head (count : Nat) (l : List Char) (h : 1 < l.length) :
    (elimLoop count l).2.head? =
      some (l.get ⟨removalIndex count l.length, removalIndex_lt count l.length (by omega)⟩) := by
  rw [elimLoop, dif_pos h]
  simp

/-! ## Normalizer lemmas -/

theorem char_toNat_ofNat (n : Nat) (h : n.isValidChar) : (Char.ofNat n).toNat = n := by
  simp [Char.ofNat, h, Char.ofNatAux, Char.toNat]
  rfl

theorem uint32_le_iff (a b : UInt32) : a ≤ b ↔ a.toNat ≤ b.toNat := Iff.rfl

theorem isUpper_toLower (d : Char) : d.toLower.isUpper = false := by
  simp only [Char.toLower, Char.isUpper]
  split
  case isTrue h =>
    have hv : (d.toNat + 32).isValidChar := by
      unfold Nat.isValidChar
      omega
    have h2 := char_toNat_ofNat _ hv
    simp only [Char.toNat] at h h2 ⊢
    simp only [ge_iff_le, Bool.and_eq_false_iff, decide_eq_false_iff_not, uint32_le_iff,
      UInt32.toNat_ofNat, UInt32.size]
    rw [h2]
    right
    omega
  case isFalse h =>
    simp only [Char.toNat] at h
    simp only [ge_iff_le, Bool.and_eq_false_iff, decide_eq_false_iff_not, uint32_le_iff,
      UInt32.toNat_ofNat, UInt32.size]
    omega

theorem isLower_range (c : Char) (h : c.isLower = true) : 'a' ≤ c ∧ c ≤ 'z' := by
  simp only [Char.isLower, ge_iff_le, Bool.and_eq_true, decide_eq_true_eq] at h
  obtain ⟨h1, h2⟩ := h
  constructor <;> rw [Char.le_def] <;> rw [uint32_le_iff] at h1 h2 ⊢ <;>
    simp [UInt32.toNat_ofNat, UInt32.size] at h1 h2 ⊢ <;> omega

theorem sanitize_range (s : List Char) (c : Char) (hc : c ∈ sanitize s) :
    'a' ≤ c ∧ c ≤ 'z' := by
  rw [sanitize, List.mem_filter] at hc
  obtain ⟨hmem, halpha⟩ := hc
  obtain ⟨d, -, rfl⟩ := List.mem_map.1 hmem
  have hup := isUpper_toLower d
  simp only [Char.isAlpha, hup, Bool.false_or] at halpha
  exact isLower_range _ halpha

/-! ## Claim theorems -/

/-- C1: for every count `N ≥ 1` the eliminator runs exactly the spec's
process on the working sequence `[F,L,A,M,E,S]` — remove index
`(N − 1) mod n`, record the letter, restart the sequence at the removal
index — terminating with a single remaining letter which is the result,
the eliminated letters reported in removal order; for `N = 2` the first
letter removed is `L`. -/
theorem C1_eliminator_follows_spec (N : Nat) (hN : 1 ≤ N) :
    elimLoop N flamesList = specEliminate N flamesList ∧
    (∃ c, (elimLoop N flamesList).1 = [c] ∧
      eliminate_flames_animation N = (some c, (elimLoop N flamesList).2) ∧
      ((elimLoop N flamesList).2 ++ [c]).Perm flamesList) ∧
    (eliminate_flames_animation 2).2.head? = some 'L' := by
  refine ⟨elimLoop_eq_specEliminate N hN flamesList.length flamesList rfl, ?_, ?_⟩
  · obtain ⟨c, hc1, hc2, -⟩ :=
      elimLoop_spec N flamesList.length flamesList rfl (by simp [flamesList])
    refine ⟨c, hc1, ?_, hc2⟩
    simp only [eliminate_flames_animation, hc1]
    rfl
  · rw [show (eliminate_flames_animation 2).2 = (elimLoop 2 flamesList).2 from rfl,
      elimLoop_steps_head 2 flamesList (by simp [flamesList])]
    rfl

theorem C1_eliminator_follows_spec_witness :
    1 ≤ 2 ∧ elimLoop 2 flamesList = specEliminate 2 flamesList :=
  ⟨by omega, (C1_eliminator_follows_spec 2 (by omega)).1⟩

/-- C2: the matcher implements the greedy first-available policy — every
pair matches equal letters of `A` and `B` at in-range indices, the matched
count refines the spec's greedy matcher, every chosen `B`-index is the
first equal letter not used by an earlier pair — and the remaining count
equals `(|A| − matched) + (|B| − matched)`. -/
theorem C2_matcher_greedy_remaining (a b : List Char) :
    (∀ p ∈ (find_common_pairs a b).1,
      p.1 < a.length ∧ p.2 < b.length ∧ a[p.1]? = b[p.2]?) ∧
    (find_common_pairs a b).1.length = specGreedyMatched a b ∧
    GreedyChoice b (find_common_pairs a b).1 (fun _ => False) ∧
    remainingCount (find_common_pairs a b).2.1 (find_common_pairs a b).2.2 =
      (a.length - (find_common_pairs a b).1.length) +
      (b.length - (find_common_pairs a b).1.length) := by
  obtain ⟨hm, -, hg⟩ := findCommonPairsAux_pairs b a 0 (List.replicate b.length false)
  refine ⟨?_, find_common_pairs_matched_spec a b, ?_, remainingCount_formula a b⟩
  · intro p hp
    rw [find_common_pairs] at hp
    obtain ⟨-, g2, g3, -, g5⟩ := hm p hp
    rw [Nat.sub_zero] at g2 g5
    exact ⟨g2, g3, g5⟩
  · rw [find_common_pairs]
    refine greedyChoice_congr b _ _ _ (fun k => ⟨fun hk => ?_, False.elim⟩) hg
    rw [List.getElem?_replicate] at hk
    split at hk <;> simp at hk

theorem C2_matcher_greedy_remaining_witness :
    (∀ p ∈ (find_common_pairs ['a', 'b'] ['b', 'c']).1,
      p.1 < 2 ∧ p.2 < 2 ∧ (['a', 'b'] : List Char)[p.1]? = (['b', 'c'] : List Char)[p.2]?) ∧
    (find_common_pairs ['a', 'b'] ['b', 'c']).1.length = specGreedyMatched ['a', 'b'] ['b', 'c'] ∧
    GreedyChoice ['b', 'c'] (find_common_pairs ['a', 'b'] ['b', 'c']).1 (fun _ => False) ∧
    remainingCount (find_common_pairs ['a', 'b'] ['b', 'c']).2.1
        (find_common_pairs ['a', 'b'] ['b', 'c']).2.2 =
      (2 - (find_common_pairs ['a', 'b'] ['b', 'c']).1.length) +
      (2 - (find_common_pairs ['a', 'b'] ['b', 'c']).1.length) :=
  C2_matcher_greedy_remaining ['a', 'b'] ['b', 'c']

/-- C3: when the count `N ≥ 1` is an exact multiple of the working length
`n ≥ 1`, the removal index `(N − 1) mod n` is the last position `n − 1`;
with `N = 6` on the initial six-letter sequence the first removed letter is
`S`. -/
theorem C3_exact_multiple_removes_last (N n : Nat) (hN : 1 ≤ N) (hn : 1 ≤ n) (hdvd : n ∣ N) :
    removalIndex N n = n - 1 ∧ (eliminate_flames_animation 6).2.head? = some 'S' := by
  constructor
  · rw [removalIndex_eq N n hN (by omega)]
    obtain ⟨k, rfl⟩ := hdvd
    rcases k with _ | k
    · simp at hN
    · have hsub : n * (k + 1) - 1 = (n - 1) + n * k := by
        rw [Nat.mul_succ]
        omega
      rw [hsub, Nat.add_mul_mod_self_left]
      exact Nat.mod_eq_of_lt (by omega)
  · rw [show (eliminate_flames_animation 6).2 = (elimLoop 6 flamesList).2 from rfl,
      elimLoop_steps_head 6 flamesList (by simp [flamesList])]
    rfl

theorem C3_exact_multiple_removes_last_witness :
    (1 ≤ 6 ∧ (6 : Nat) ∣ 6) ∧ removalIndex 6 6 = 5 :=
  ⟨⟨by omega, by omega⟩, (C3_exact_multiple_removes_last 6 6 (by omega) (by omega) (by omega)).1⟩

/-- C4: the end-to-end computation returns the invalid-input error exactly
when at least one name sanitizes to the empty letter sequence, and in every
other case it returns a full result. -/
theorem C4_invalid_input_iff (name1 name2 : List Char) :
    (computeFlames name1 name2 = FlamesOutcome.invalidInput ↔
      (sanitize name1 = [] ∨ sanitize name2 = [])) ∧
    (computeFlames name1 name2 = FlamesOutcome.invalidInput ∨
      ∃ r o f c, computeFlames name1 name2 = FlamesOutcome.result r o f c) := by
  by_cases h : sanitize name1 = [] ∨ sanitize name2 = []
  · constructor
    · simp [computeFlames, h]
    · left
      simp [computeFlames, h]
  · constructor
    · simp [computeFlames, h]
    · right
      simp only [computeFlames, if_neg h]
      exact ⟨_, _, _, _, rfl⟩

theorem C4_invalid_input_iff_witness :
    (computeFlames [] [] = FlamesOutcome.invalidInput ↔
      (sanitize [] = [] ∨ sanitize [] = [])) ∧
    (computeFlames [] [] = FlamesOutcome.invalidInput ∨
      ∃ r o f c, computeFlames [] [] = FlamesOutcome.result r o f c) :=
  C4_invalid_input_iff [] []

/-- C5: the normalizer keeps only letters, lowercased, so its output
contains only characters between `a` and `z`; `sanitize` of `John 123!`
is `john` and `sanitize` of the empty string is empty. -/
theorem C5_sanitize_only_lowercase (s : List Char) :
    (∀ c ∈ sanitize s, 'a' ≤ c ∧ c ≤ 'z') ∧
    sanitize ("John 123!".data) = "john".data ∧
    sanitize ([] : List Char) = [] :=
  ⟨fun c hc => sanitize_range s c hc, by decide, rfl⟩

theorem C5_sanitize_only_lowercase_witness :
    'j' ∈ sanitize ("John 123!".data) ∧ ('a' ≤ 'j' ∧ 'j' ≤ 'z') :=
  ⟨by decide, (C5_sanitize_only_lowercase ("John 123!".data)).1 'j' (by decide)⟩

/-- C6: for two non-empty letter sequences the remaining count is 0 when
the sequences are permutations of each other, and at least 1 otherwise. -/
theorem C6_remaining_vs_perm (a b : List Char) (_ha : a ≠ []) (_hb : b ≠ []) :
    (a.Perm b →
      remainingCount (find_common_pairs a b).2.1 (find_common_pairs a b).2.2 = 0) ∧
    (¬ a.Perm b →
      1 ≤ remainingCount (find_common_pairs a b).2.1 (find_common_pairs a b).2.2) := by
  have hfor := remainingCount_formula a b
  have hcard := find_common_pairs_matched_card a b
  have hle1 : ((a : Multiset Char) ∩ (b : Multiset Char)).card ≤ a.length := by
    simpa using Multiset.card_le_card
      (Multiset.inter_le_left (a : Multiset Char) (b : Multiset Char))
  have hle2 : ((a : Multiset Char) ∩ (b : Multiset Char)).card ≤ b.length := by
    simpa using Multiset.card_le_card
      (Multiset.inter_le_right (a : Multiset Char) (b : Multiset Char))
  constructor
  · intro hperm
    have hab : (a : Multiset Char) = (b : Multiset Char) := Multiset.coe_eq_coe.2 hperm
    have hlen : a.length = b.length := hperm.length_eq
    have hself : (b : Multiset Char) ∩ (b : Multiset Char) = (b : Multiset Char) :=
      le_antisymm (Multiset.inter_le_left _ _) (Multiset.le_inter le_rfl le_rfl)
    rw [hfor, hcard, hab, hself, Multiset.coe_card]
    omega
  · intro hnp
    by_contra hcon
    rw [hfor, hcard] at hcon
    have hm1 : a.length ≤ ((a : Multiset Char) ∩ (b : Multiset Char)).card := by omega
    have hm2 : b.length ≤ ((a : Multiset Char) ∩ (b : Multiset Char)).card := by omega
    have e1 : (a : Multiset Char) = (a : Multiset Char) ∩ (b : Multiset Char) :=
      (Multiset.eq_of_le_of_card_le
        (Multiset.inter_le_left (a : Multiset Char) (b : Multiset Char))
        (by rw [Multiset.coe_card]; exact hm1)).symm
    have e2 : (b : Multiset Char) = (a : Multiset Char) ∩ (b : Multiset Char) :=
      (Multiset.eq_of_le_of_card_le
        (Multiset.inter_le_right (a : Multiset Char) (b : Multiset Char))
        (by rw [Multiset.coe_card]; exact hm2)).symm
    exact hnp (Multiset.coe_eq_coe.1 (e1.trans e2.symm))

theorem C6_remaining_vs_perm_witness :
    ¬ (['a'] : List Char).Perm ['b'] ∧
    1 ≤ remainingCount (find_common_pairs ['a'] ['b']).2.1 (find_common_pairs ['a'] ['b']).2.2 :=
  ⟨by decide, (C6_remaining_vs_perm ['a'] ['b'] (by decide) (by decide)).2 (by decide)⟩

/-- C7: in the pairing produced by the matcher, every `A`-index and every
`B`-index appears in at most one pair. -/
theorem C7_pairing_indices_unique (a b : List Char) :
    (find_common_pairs a b).1.Pairwise (fun p q => p.1 ≠ q.1 ∧ p.2 ≠ q.2) := by
  have h := (findCommonPairsAux_pairs b a 0 (List.replicate b.length false)).2.1
  rw [find_common_pairs]
  exact h.imp (fun hpq => ⟨Nat.ne_of_lt hpq.1, hpq.2⟩)

theorem C7_pairing_indices_unique_witness :
    (find_common_pairs ("steve".data) ("eve".data)).1.Pairwise
      (fun p q => p.1 ≠ q.1 ∧ p.2 ≠ q.2) :=
  C7_pairing_indices_unique ("steve".data) ("eve".data)

/-- C8: the composed computation is deterministic — it is a pure function
of the two names, so equal inputs give equal remaining counts, elimination
orders, final letters and categories. -/
theorem C8_deterministic (n1 n2 m1 m2 : List Char) (h1 : n1 = m1) (h2 : n2 = m2) :
    computeFlames n1 n2 = computeFlames m1 m2 := by
  rw [h1, h2]

theorem C8_deterministic_witness :
    computeFlames ("steve".data) ("eve".data) = computeFlames ("steve".data) ("eve".data) :=
  C8_deterministic ("steve".data) ("eve".data) ("steve".data) ("eve".data) rfl rfl

/-- C9: for every non-negative count, including 0, the elimination loop
terminates, producing one surviving FLAMES letter and the five eliminated
letters (a permutation of the start sequence), and the removal index
`(count − 1) mod n` is in range for every positive length. -/
theorem C9_elimination_total (count : Nat) :
    (∃ c, (elimLoop count flamesList).1 = [c] ∧
      eliminate_flames_animation count = (some c, (elimLoop count flamesList).2) ∧
      c ∈ flamesList ∧
      (elimLoop count flamesList).2.length = 5 ∧
      ((elimLoop count flamesList).2 ++ [c]).Perm flamesList) ∧
    (∀ n, 0 < n → removalIndex count n < n) := by
  constructor
  · obtain ⟨c, hc1, hc2, hc3⟩ :=
      elimLoop_spec count flamesList.length flamesList rfl (by simp [flamesList])
    refine ⟨c, hc1, ?_, ?_, ?_, hc2⟩
    · simp only [eliminate_flames_animation, hc1]
      rfl
    · exact (hc2.mem_iff).1 (by simp)
    · simpa [flamesList] using hc3
  · exact fun n hn => removalIndex_lt count n hn

theorem C9_elimination_total_witness :
    (∃ c, (elimLoop 0 flamesList).1 = [c] ∧
      eliminate_flames_animation 0 = (some c, (elimLoop 0 flamesList).2) ∧
      c ∈ flamesList ∧
      (elimLoop 0 flamesList).2.length = 5 ∧
      ((elimLoop 0 flamesList).2 ++ [c]).Perm flamesList) ∧
    (∀ n, 0 < n → removalIndex 0 n < n) :=
  C9_elimination_total 0

/-- C10: the result is symmetric in the two names — the remaining count,
and with it the whole outcome, is unchanged when the names are swapped. -/
theorem C10_swap_names (name1 name2 : List Char) :
    computeFlames name1 name2 = computeFlames name2 name1 := by
  have hsym : remainingCount (find_common_pairs (sanitize name1) (sanitize name2)).2.1
      (find_common_pairs (sanitize name1) (sanitize name2)).2.2 =
      remainingCount (find_common_pairs (sanitize name2) (sanitize name1)).2.1
      (find_common_pairs (sanitize name2) (sanitize name1)).2.2 := by
    rw [remainingCount_formula, remainingCount_formula,
      find_common_pairs_matched_card, find_common_pairs_matched_card,
      Multiset.inter_comm]
    omega
  simp only [computeFlames]
  by_cases h1 : sanitize name1 = [] <;> by_cases h2 : sanitize name2 = [] <;>
    simp [h1, h2, hsym]

theorem C10_swap_names_witness :
    computeFlames ("steve".data) ("eve".data) = computeFlames ("eve".data) ("steve".data) :=
  C10_swap_names ("steve".data) ("eve".data)
